import Mathlib

/-!
Shallow embedding of the `maurofran/filesystem` Go library (path normalizer,
config chain, virtual-filesystem facade, mount manager, plugin registry),
together with theorems settling the specification claims about it.

Go strings are modelled as their rune sequences (`List Char`), Go maps as
`GoMap` (`none` models a nil map: lookups miss, assignments fault), and a Go
function call that can return an error, or reach a runtime panic, as
`GoResult`.
-/

/-- Error taxonomy of the library (`error.go`, `normalizeRelativePath`,
`splitPath`): each constructor models one concrete error value the Go code
builds, carrying the same payload. -/
inductive Err where
  /-- The `fmt.Errorf("Path is outside of defined root, path: %s", path)` error
  of `normalizeRelativePath`. -/
  | pathOutsideRoot (p : List Char)
  /-- The `fileNotFoundError{missingPath: path}` error. -/
  | fileNotFound (p : List Char)
  /-- The `fileExistsError{existingPath: path}` error. -/
  | fileExists (p : List Char)
  /-- The `invalidPathError(path)` error of `splitPath`. -/
  | invalidPath (p : List Char)
  /-- The `mountNotFoundError(prefix)` error. -/
  | mountNotFound (pfx : List Char)
  /-- The `mountExistsError(prefix)` error. -/
  | mountExists (pfx : List Char)
  /-- The `pluginNotFoundError{missingPlugin: method}` error. -/
  | pluginNotFound (method : String)
  /-- The `errors.New("adapter is required")` error of `New`. -/
  | adapterRequired
  /-- The `errors.New("Root directories cannot be deleted")` error of `DeleteDir`. -/
  | rootDirDelete
  /-- An opaque error produced by a storage backend (the code never inspects
  these, it only forwards them). -/
  | adapterErr (n : Nat)
deriving DecidableEq, Repr

/-- Result of a Go call: a value, a returned error, or a runtime panic
(nil-map assignment, method call through a nil interface, ...). -/
inductive GoResult (α : Type) where
  | ok (a : α)
  | error (e : Err)
  | panicked
deriving DecidableEq, Repr

/-- A Go map value. `none` models a nil map (the zero value of a map-typed
field): lookups on it report absence, `delete` is a no-op, but an assignment
into it is a runtime panic. -/
def GoMap (κ α : Type) : Type := Option (List (κ × α))

/-- Go map read `v, ok := m[k]`: a nil map reports absence. -/
def goLookup [DecidableEq κ] (m : GoMap κ α) (k : κ) : Option α :=
  match m with
  | none => none
  | some l => l.lookup k

/-- Go map assignment `m[k] = v`: replaces the binding of `k` (or appends it),
and faults (`none`) when the map is nil. -/
def goInsert [DecidableEq κ] (m : GoMap κ α) (k : κ) (v : α) :
    Option (GoMap κ α) :=
  match m with
  | none => none
  | some l => some (some (assocSet l k v))
where
  /-- Replace the first binding of `k` in an association list, appending a new
  binding when none exists (a Go map holds at most one binding per key). -/
  assocSet : List (κ × α) → κ → α → List (κ × α)
    | [], k, v => [(k, v)]
    | (k', v') :: t, k, v =>
      if k' = k then (k, v) :: t else (k', v') :: assocSet t k v

/-- A Go `interface{}` value, restricted to the shapes the library stores in
configuration maps. -/
inductive GoVal where
  | vBool (b : Bool)
  | vInt (n : Int)
  | vStr (s : String)
  | vNil
deriving DecidableEq, Repr

/-! ## Path normalizer (`utils.go`) -/

/-- Go's `\p{C}` character class (`unicode.C` = categories Cc, Cf, Co, Cs),
used by the `whiteSpaceRegexp` pattern. The ranges cover the control (Cc),
format (Cf), surrogate (Cs) and private-use (Co) code points; the proofs about
the normalizer only rely on the printable ASCII characters appearing in paths
(`/`, `\`, `#`, `.`, `u`, letters) being outside the class. -/
def isC (c : Char) : Bool :=
  c.val < 0x20 || (0x7F ≤ c.val && c.val ≤ 0x9F) ||
  c.val == 0xAD ||
  (0x600 ≤ c.val && c.val ≤ 0x605) ||
  c.val == 0x61C || c.val == 0x6DD || c.val == 0x70F || c.val == 0x8E2 ||
  c.val == 0x180E ||
  (0x200B ≤ c.val && c.val ≤ 0x200F) ||
  (0x202A ≤ c.val && c.val ≤ 0x202E) ||
  (0x2060 ≤ c.val && c.val ≤ 0x2064) ||
  (0x2066 ≤ c.val && c.val ≤ 0x206F) ||
  c.val == 0xFEFF ||
  (0xFFF9 ≤ c.val && c.val ≤ 0xFFFB) ||
  (0xD800 ≤ c.val && c.val ≤ 0xDFFF) ||
  (0xE000 ≤ c.val && c.val ≤ 0xF8FF) ||
  (0xF0000 ≤ c.val && c.val ≤ 0xFFFFD) ||
  (0x100000 ≤ c.val && c.val ≤ 0x10FFFD)

/-- Whether the first character of the list is in class `\p{C}`. -/
def headIsC : List Char → Bool
  | [] => false
  | c :: _ => isC c

/-- One left-to-right scan replacing every match of the alternative
`#\p{C}+` of `whiteSpaceRegexp` with the empty string (Go
`ReplaceAllString` for that alternative): a literal `#` followed by a
maximal nonempty run of `\p{C}` characters is dropped. The flag records
that the scan is still inside the `\p{C}` run of a match being dropped. -/
def stripHashAux : Bool → List Char → List Char
  | _, [] => []
  | inRun, c :: rest =>
    if inRun && isC c then stripHashAux true rest
    else if c = '#' && headIsC rest then stripHashAux true rest
    else c :: stripHashAux false rest

/-- Replace every match of `#\p{C}+` with the empty string. -/
def stripHash (cs : List Char) : List Char :=
  stripHashAux false cs

/-- One full `ReplaceAllString` pass of `whiteSpaceRegexp` =
`#\p{C}+|^\./#u`: the anchored alternative `^\./#u` can only match once, at
the start of the string (the literal four characters `./#u`); every `#\p{C}+`
match in the rest is dropped. The two alternatives cannot both match at
position 0 (one starts with `.`, the other with `#`). -/
def stripPassFn (cs : List Char) : List Char :=
  if ['.', '/', '#', 'u'].isPrefixOf cs then stripHash (cs.drop 4) else stripHash cs

/-- Whether `#\p{C}+` matches anywhere in the string. -/
def hasHashMatch : List Char → Bool
  | [] => false
  | c :: rest =>
    if c = '#' && headIsC rest then true else hasHashMatch rest

/-- Go `whiteSpaceRegexp.MatchString`: either the anchored `^\./#u`
alternative matches, or `#\p{C}+` matches somewhere. -/
def hasMatch (cs : List Char) : Bool :=
  ['.', '/', '#', 'u'].isPrefixOf cs || hasHashMatch cs

/-- The retry loop of `removeFunkyWhiteSpace`, with explicit fuel. Each
iteration that fires strictly shortens the string
(`stripPassFn_length_lt`), so `cs.length` iterations always reach the
fixpoint; the fuelled loop is therefore equivalent to Go's unbounded
`for whiteSpaceRegexp.MatchString(p)` loop. -/
def removeFunkyLoop : Nat → List Char → List Char
  | 0, cs => cs
  | fuel + 1, cs => if hasMatch cs then removeFunkyLoop fuel (stripPassFn cs) else cs

/-- `removeFunkyWhiteSpace` (utils.go): repeatedly replace all matches of
`whiteSpaceRegexp` with the empty string until the string has no match. -/
def removeFunkyWhiteSpace (cs : List Char) : List Char :=
  removeFunkyLoop cs.length cs

/-- The `strings.Replace(path, "\\", "/", -1)` step of
`normalizeRelativePath`. -/
def goReplaceBackslash (cs : List Char) : List Char :=
  cs.map fun c => if c = '\\' then '/' else c

/-- Go `strings.Split` for a one-character separator: splitting the empty
string yields one empty piece, and every separator occurrence starts a new
piece. -/
def goSplit (sep : Char) : List Char → List (List Char)
  | [] => [[]]
  | c :: rest =>
    if c = sep then [] :: goSplit sep rest
    else
      match goSplit sep rest with
      | s :: ss => (c :: s) :: ss
      | [] => [[c]]

/-- Go `strings.Join` with a one-character separator. -/
def goJoin (sep : Char) : List (List Char) → List Char
  | [] => []
  | [p] => p
  | p :: ps => p ++ sep :: goJoin sep ps

/-- The segment loop of `normalizeRelativePath`: empty and `.` segments are
dropped, `..` pops the last retained segment and fails (`none`) when there is
nothing to pop, every other segment is appended. -/
def segFold : List (List Char) → List (List Char) → Option (List (List Char))
  | parts, [] => some parts
  | parts, p :: rest =>
    if p = [] then segFold parts rest
    else if p = ['.'] then segFold parts rest
    else if p = ['.', '.'] then
      if parts = [] then none else segFold parts.dropLast rest
    else segFold (parts ++ [p]) rest

/-- `normalizeRelativePath` (utils.go): replace backslashes with slashes,
strip `whiteSpaceRegexp` matches, split on `/`, resolve `.`/`..` segments
(failing when `..` would escape the root), and join the retained segments
with `/`. `none` models the `"Path is outside of defined root"` error. -/
def normalizeRelativePath (path : List Char) : Option (List Char) :=
  match segFold [] (goSplit '/' (removeFunkyWhiteSpace (goReplaceBackslash path))) with
  | none => none
  | some parts => some (goJoin '/' parts)

/-- `normalizePath` (utils.go) simply delegates to `normalizeRelativePath`. -/
def normalizePath (path : List Char) : Option (List Char) :=
  normalizeRelativePath path

/-- A path segment that the loop of `normalizeRelativePath` retains verbatim:
not empty, not `.`, not `..`. -/
def Plain (p : List Char) : Prop :=
  p ≠ [] ∧ p ≠ ['.'] ∧ p ≠ ['.', '.']

/-! ## Config chain (`config.go`) -/

/-- The `Config` struct: a `settings` map plus an optional `fallback`
pointer (`none` models a nil `*Config`). `EmptyConfig` returns `&Config{}`,
whose `settings` field is the nil map. -/
inductive Config where
  | mk (settings : GoMap String GoVal) (fallback : Option Config)

/-- `EmptyConfig` (config.go): `&Config{}` — nil `settings` map, nil
`fallback` pointer. -/
def EmptyConfig : Config := .mk none none

/-- The `settings` field of a `Config`. -/
def Config.settings : Config → GoMap String GoVal
  | .mk s _ => s

/-- The `fallback` field of a `Config`. -/
def Config.fallback : Config → Option Config
  | .mk _ fb => fb

/-- `Config.Get` (config.go): local settings first, then the fallback chain,
then the caller-supplied default. -/
def Config.get : Config → String → GoVal → GoVal
  | .mk s fb, key, dflt =>
    match goLookup s key with
    | some v => v
    | none =>
      match fb with
      | some c => c.get key dflt
      | none => dflt

/-- `Config.Set` (config.go): `c.settings[key] = val`. Faults (`none`) when
`settings` is the nil map, as it is for `EmptyConfig()`. -/
def Config.set (c : Config) (key : String) (val : GoVal) : Option Config :=
  (goInsert c.settings key val).map fun s => .mk s c.fallback

/-- `Config.SetFallback` (config.go), taking the possibly-nil `*Config`
argument. -/
def Config.setFallback (c : Config) (fb : Option Config) : Config :=
  .mk c.settings fb

/-- `Configurable.PrepareConfig` (config.go): start from `EmptyConfig()`,
`Set` every override entry in turn (map iteration modelled as list order;
each `Set` can fault), then install the owning filesystem's persistent
`*Config` as the fallback. -/
def prepareConfig (fsConfig : Option Config) (overrides : List (String × GoVal)) :
    Option Config :=
  match overrides.foldlM (fun c (kv : String × GoVal) => c.set kv.1 kv.2) EmptyConfig with
  | none => none
  | some cfg => some (cfg.setFallback fsConfig)

/-! ## Virtual filesystem facade (`filesystem.go`, `plugin.go`) -/

/-- A storage backend behind the `Adapter` interface, restricted to the
operations the facade claims exercise. Each field is the backend's response
function; the facade never inspects these results, it only forwards them. -/
structure Adapter where
  has : List Char → GoResult Bool
  write : List Char → String → Config → GoResult Unit
  update : List Char → String → Config → GoResult Unit
  delete : List Char → GoResult Bool
  move : List Char → List Char → GoResult Unit
  copy : List Char → List Char → GoResult Unit

/-- A registered plugin: its declared `Method()` name and its `Handle`
behavior (the `SetFileSystem` binding carries no observable state here and is
not modelled). -/
structure PluginSpec where
  method : String
  handle : List GoVal → GoResult GoVal

/-- The `filesystem` struct of `filesystem.go`: the embedded `Configurable`'s
`*Config` (possibly nil), the embedded `Pluggable`'s `plugins` map, and the
adapter. -/
structure Filesystem where
  config : Option Config
  plugins : GoMap String PluginSpec
  adapter : Adapter

/-- `New` (filesystem.go): rejects a nil adapter, otherwise builds
`new(filesystem)` — so the `Pluggable.plugins` map is the nil map — and
stores the given `*Config` via `SetConfig`. -/
def Filesystem.new (adapter : Option Adapter) (config : Option Config) :
    Except Err Filesystem :=
  match adapter with
  | none => .error .adapterRequired
  | some a => .ok { config := config, plugins := none, adapter := a }

/-- `filesystem.Has` (filesystem.go): normalize, report `false` for the empty
(root) path without consulting the adapter, else delegate to `Adapter.Has`. -/
def Filesystem.hasF (fs : Filesystem) (path : List Char) : GoResult Bool :=
  match normalizeRelativePath path with
  | none => .error (.pathOutsideRoot path)
  | some p => if p = [] then .ok false else fs.adapter.has p

/-- `filesystem.assertPresent` (filesystem.go). The Go guard is
`v, ok := fs.Config().Get("disableAsserts", false).(bool); if !ok || v { ... }`:
the presence check runs when the resolved value is the boolean `true` or is
not a boolean at all. A nil `*Config` panics inside `Get` (nil receiver
dereference). -/
def Filesystem.assertPresent (fs : Filesystem) (path : List Char) : GoResult Unit :=
  match fs.config with
  | none => .panicked
  | some cfg =>
    let guard : Bool :=
      match cfg.get "disableAsserts" (.vBool false) with
      | .vBool b => b
      | _ => true
    if guard then
      match fs.hasF path with
      | .error e => .error e
      | .panicked => .panicked
      | .ok present => if present then .ok () else .error (.fileNotFound path)
    else .ok ()

/-- `filesystem.assertAbsent` (filesystem.go), with the same
`!ok || v` guard as `assertPresent`. -/
def Filesystem.assertAbsent (fs : Filesystem) (path : List Char) : GoResult Unit :=
  match fs.config with
  | none => .panicked
  | some cfg =>
    let guard : Bool :=
      match cfg.get "disableAsserts" (.vBool false) with
      | .vBool b => b
      | _ => true
    if guard then
      match fs.hasF path with
      | .error e => .error e
      | .panicked => .panicked
      | .ok present => if present then .error (.fileExists path) else .ok ()
    else .ok ()

/-- `filesystem.Write` (filesystem.go): normalize, `assertAbsent`, then
forward to `Adapter.Write` with the prepared config (`PrepareConfig` runs
after the assertion, at the adapter call). -/
def Filesystem.write (fs : Filesystem) (path : List Char) (content : String)
    (config : List (String × GoVal)) : GoResult Unit :=
  match normalizeRelativePath path with
  | none => .error (.pathOutsideRoot path)
  | some p =>
    match fs.assertAbsent p with
    | .error e => .error e
    | .panicked => .panicked
    | .ok _ =>
      match prepareConfig fs.config config with
      | none => .panicked
      | some cfg => fs.adapter.write p content cfg

/-- `filesystem.Update` (filesystem.go): normalize, `assertPresent`, then
forward to `Adapter.Update`. -/
def Filesystem.update (fs : Filesystem) (path : List Char) (content : String)
    (config : List (String × GoVal)) : GoResult Unit :=
  match normalizeRelativePath path with
  | none => .error (.pathOutsideRoot path)
  | some p =>
    match fs.assertPresent p with
    | .error e => .error e
    | .panicked => .panicked
    | .ok _ =>
      match prepareConfig fs.config config with
      | none => .panicked
      | some cfg => fs.adapter.update p content cfg

/-- `filesystem.Delete` (filesystem.go): normalize, `assertPresent`, then
forward to `Adapter.Delete`. -/
def Filesystem.delete (fs : Filesystem) (path : List Char) : GoResult Bool :=
  match normalizeRelativePath path with
  | none => .error (.pathOutsideRoot path)
  | some p =>
    match fs.assertPresent p with
    | .error e => .error e
    | .panicked => .panicked
    | .ok _ => fs.adapter.delete p

/-- `filesystem.Move` (filesystem.go): normalize both paths,
`assertPresent(path)`, `assertAbsent(newpath)`, then `Adapter.Move`. -/
def Filesystem.move (fs : Filesystem) (path newpath : List Char) : GoResult Unit :=
  match normalizeRelativePath path with
  | none => .error (.pathOutsideRoot path)
  | some p =>
    match normalizeRelativePath newpath with
    | none => .error (.pathOutsideRoot newpath)
    | some np =>
      match fs.assertPresent p with
      | .error e => .error e
      | .panicked => .panicked
      | .ok _ =>
        match fs.assertAbsent np with
        | .error e => .error e
        | .panicked => .panicked
        | .ok _ => fs.adapter.move p np

/-- `filesystem.Copy` (filesystem.go): normalize both paths,
`assertPresent(path)`, then `assertAbsent(path)` — the source code passes
`path`, not `newpath`, to the second assertion — then `Adapter.Copy`. -/
def Filesystem.copy (fs : Filesystem) (path newpath : List Char) : GoResult Unit :=
  match normalizeRelativePath path with
  | none => .error (.pathOutsideRoot path)
  | some p =>
    match normalizeRelativePath newpath with
    | none => .error (.pathOutsideRoot newpath)
    | some np =>
      match fs.assertPresent p with
      | .error e => .error e
      | .panicked => .panicked
      | .ok _ =>
        match fs.assertAbsent p with
        | .error e => .error e
        | .panicked => .panicked
        | .ok _ => fs.adapter.copy p np

/-- `Pluggable.AddPlugin` (plugin.go): `p.plugins[plugin.Method()] = plugin`.
Faults (`none`) when the `plugins` map is nil, as it is for a filesystem
built by `New`. -/
def Filesystem.addPlugin (fs : Filesystem) (pl : PluginSpec) : Option Filesystem :=
  (goInsert fs.plugins pl.method pl).map fun m => { fs with plugins := m }

/-- `Pluggable.FindPlugin` (plugin.go): look the method name up in the
`plugins` map, failing with `pluginNotFoundError` when absent. -/
def Filesystem.findPlugin (fs : Filesystem) (method : String) :
    Except Err PluginSpec :=
  match goLookup fs.plugins method with
  | none => .error (.pluginNotFound method)
  | some pl => .ok pl

/-- `Pluggable.InvokePlugin` (plugin.go): `FindPlugin`, returning its error
unwrapped, then bind the filesystem and run `Handle`. -/
def Filesystem.invokePlugin (fs : Filesystem) (method : String)
    (args : List GoVal) : GoResult GoVal :=
  match fs.findPlugin method with
  | .error e => .error e
  | .ok pl => pl.handle args

/-! ## Mount manager (`src/unnamed/part_001`) -/

/-- Whether the regular expression `^[a-z]+://` matches a path: one or more
lowercase ASCII letters followed by the literal `://`. Since `:` is not a
lowercase letter, the greedy `[a-z]+` has a unique viable extent, the maximal
leading letter run. -/
def matchesScheme (p : List Char) : Bool :=
  let letters := p.takeWhile fun c => 'a' ≤ c && c ≤ 'z'
  letters ≠ [] && [':', '/', '/'].isPrefixOf (p.drop letters.length)

/-- Go `strings.Index` for a needle substring: index of the first occurrence,
`none` for Go's `-1`. -/
def findSub (needle : List Char) : List Char → Option Nat
  | [] => if needle = [] then some 0 else none
  | c :: rest =>
    if needle.isPrefixOf (c :: rest) then some 0
    else (findSub needle rest).map (· + 1)

/-- `splitPath` (mount manager): require a `^[a-z]+://` shape, then split at
the first `://` into the mount prefix and the subpath. When the pattern
matched, `://` necessarily occurs, so the index lookup cannot miss; the
unreachable miss branch is modelled as the slice panic Go would raise on a
negative index. -/
def splitPath (p : List Char) : GoResult (List Char × List Char) :=
  if matchesScheme p then
    match findSub [':', '/', '/'] p with
    | some idx => .ok (p.take idx, p.drop (idx + 3))
    | none => .panicked
  else .error (.invalidPath p)

/-- A mounted `Interface` instance as the mount manager sees it: an opaque
identity plus the response behavior of the operations the manager's
move/copy synthesis calls. `readStream` returns an abstract stream handle;
Go returns a nil `io.ReadCloser` alongside an error, so the handle is only
available in the `ok` case. -/
structure MountedFS where
  id : Nat
  readStream : List Char → GoResult Nat
  writeStream : List Char → Nat → GoResult Unit
  delete : List Char → GoResult Unit
  move : List Char → List Char → GoResult Unit
  copy : List Char → List Char → GoResult Unit

/-- Observable outcome of a mount-manager move/copy: the returned value, plus
whether the manager invoked the source instance's `Delete`, and the `Close()`
calls the manager performed on the source stream (`some h` a close of handle
`h`, `none` a close through a nil `io.ReadCloser` interface value — a
runtime panic). -/
structure OpTrace where
  result : GoResult Unit
  deleteCalled : Bool
  closes : List (Option Nat)
deriving DecidableEq, Repr

/-- Models the Go condition `&mgr1 == &mgr2` in `mountManager.Move` and
`mountManager.Copy`: it compares the addresses of the two distinct local
variables `mgr1` and `mgr2` (not the interface values they hold), and two
distinct live local variables never share an address, so the condition is
false for every pair of operands. -/
def addrEqLocalVars (_mgr1 _mgr2 : MountedFS) : Bool := false

/-- The streaming tail of `mountManager.Move`:
`source, err := mgr1.ReadStream(...)`, `defer source.Close()` registered
before the error check, then `mgr2.WriteStream`, then `mgr1.Delete`. When
`ReadStream` errors, the deferred `Close` runs on the nil handle and the call
panics instead of returning the error. -/
def crossMove (mgr1 mgr2 : MountedFS) (sp dp : List Char) : OpTrace :=
  match mgr1.readStream sp with
  | .error _ => { result := .panicked, deleteCalled := false, closes := [none] }
  | .panicked => { result := .panicked, deleteCalled := false, closes := [] }
  | .ok h =>
    match mgr2.writeStream dp h with
    | .error e => { result := .error e, deleteCalled := false, closes := [some h] }
    | .panicked => { result := .panicked, deleteCalled := false, closes := [some h] }
    | .ok _ =>
      match mgr1.delete sp with
      | .error e => { result := .error e, deleteCalled := true, closes := [some h] }
      | .panicked => { result := .panicked, deleteCalled := true, closes := [some h] }
      | .ok _ => { result := .ok (), deleteCalled := true, closes := [some h] }

/-- The streaming tail of `mountManager.Copy`: like `crossMove` but without
the final `Delete`. -/
def crossCopy (mgr1 mgr2 : MountedFS) (sp dp : List Char) : OpTrace :=
  match mgr1.readStream sp with
  | .error _ => { result := .panicked, deleteCalled := false, closes := [none] }
  | .panicked => { result := .panicked, deleteCalled := false, closes := [] }
  | .ok h =>
    match mgr2.writeStream dp h with
    | .error e => { result := .error e, deleteCalled := false, closes := [some h] }
    | .panicked => { result := .panicked, deleteCalled := false, closes := [some h] }
    | .ok _ => { result := .ok (), deleteCalled := false, closes := [some h] }

/-- The `mountManager` struct: its `managers` map from mount prefix to
mounted instance. `EmptyMountManager` returns `&mountManager{}`, whose
`managers` field is the nil map. -/
structure MountMgr where
  managers : GoMap (List Char) MountedFS

/-- `EmptyMountManager` (mount manager): `&mountManager{}` — nil `managers`
map. -/
def emptyMountManager : MountMgr := { managers := none }

/-- `mountManager.Mount`: fail `MountExists` when the prefix is taken, else
`mm.managers[prefix] = mgr` — an assignment that panics when the `managers`
map is nil. -/
def MountMgr.mount (mm : MountMgr) (pfx : List Char) (mgr : MountedFS) :
    GoResult MountMgr :=
  match goLookup mm.managers pfx with
  | some _ => .error (.mountExists pfx)
  | none =>
    match goInsert mm.managers pfx mgr with
    | none => .panicked
    | some m => .ok { managers := m }

/-- `mountManager.managerFor`: split the path, look the prefix up in the
mount table, failing `MountNotFound` when absent. -/
def MountMgr.managerFor (mm : MountMgr) (p : List Char) :
    GoResult (MountedFS × List Char) :=
  match splitPath p with
  | .error e => .error e
  | .panicked => .panicked
  | .ok (pfx, sub) =>
    match goLookup mm.managers pfx with
    | none => .error (.mountNotFound pfx)
    | some mgr => .ok (mgr, sub)

/-- An `OpTrace` for a move/copy that ended before any streaming began. -/
def earlyTrace (r : GoResult Unit) : OpTrace :=
  { result := r, deleteCalled := false, closes := [] }

/-- `mountManager.Move`: resolve both paths, take the native branch when
`&mgr1 == &mgr2` (constantly false, see `addrEqLocalVars`), else run the
streaming synthesis `crossMove`. -/
def MountMgr.move (mm : MountMgr) (path newpath : List Char) : OpTrace :=
  match mm.managerFor path with
  | .error e => earlyTrace (.error e)
  | .panicked => earlyTrace .panicked
  | .ok (mgr1, sp1) =>
    match mm.managerFor newpath with
    | .error e => earlyTrace (.error e)
    | .panicked => earlyTrace .panicked
    | .ok (mgr2, sp2) =>
      if addrEqLocalVars mgr1 mgr2 then earlyTrace (mgr1.move sp1 sp2)
      else crossMove mgr1 mgr2 sp1 sp2

/-- `mountManager.Copy`: resolve both paths, take the native branch when
`&mgr1 == &mgr2` (constantly false), else run the streaming synthesis
`crossCopy`. -/
def MountMgr.copy (mm : MountMgr) (path newpath : List Char) : OpTrace :=
  match mm.managerFor path with
  | .error e => earlyTrace (.error e)
  | .panicked => earlyTrace .panicked
  | .ok (mgr1, sp1) =>
    match mm.managerFor newpath with
    | .error e => earlyTrace (.error e)
    | .panicked => earlyTrace .panicked
    | .ok (mgr2, sp2) =>
      if addrEqLocalVars mgr1 mgr2 then earlyTrace (mgr1.copy sp1 sp2)
      else crossCopy mgr1 mgr2 sp1 sp2

/-! ## Concrete fixtures used to evaluate the claims

The mutating constructors of the library never allocate their maps (see the
theorems on `EmptyConfig`, `Filesystem.new` and `emptyMountManager`), so
structs whose maps hold entries are written out directly as struct states:
they are the states the surrounding code manifestly intends to reach. -/

/-- A backend holding exactly the file `a`: its presence check reports `a`
and nothing else, and every mutation succeeds. -/
def oneFileAdapter : Adapter where
  has p := .ok (decide (p = ['a']))
  write _ _ _ := .ok ()
  update _ _ _ := .ok ()
  delete _ := .ok true
  move _ _ := .ok ()
  copy _ _ := .ok ()

/-- A facade over `oneFileAdapter` in the default configuration
(`EmptyConfig()`, `disableAsserts` unset), as `New` builds it. -/
def fsDefault : Filesystem :=
  { config := some EmptyConfig, plugins := none, adapter := oneFileAdapter }

/-- A `Config` struct state with `disableAsserts` set to `true`. -/
def disableAssertsConfig : Config :=
  .mk (some [("disableAsserts", .vBool true)]) none

/-- A facade over `oneFileAdapter` whose persistent config sets
`disableAsserts` to `true`. -/
def fsDisabled : Filesystem :=
  { config := some disableAssertsConfig, plugins := none, adapter := oneFileAdapter }

/-- A persistent filesystem `Config` whose `settings` map binds `x` to `1`. -/
def persistentConfigX1 : Config :=
  .mk (some [("x", .vInt 1)]) none

/-- A sample plugin declaring method name `EmptyDir`. -/
def samplePlugin : PluginSpec :=
  { method := "EmptyDir", handle := fun _ => .ok .vNil }

/-- A mounted instance whose native `Move`/`Copy` would return the
distinctive error `adapterErr 99`, while its streaming operations all
succeed (stream handle `7`). -/
def fsLoc : MountedFS where
  id := 1
  readStream _ := .ok 7
  writeStream _ _ := .ok ()
  delete _ := .ok ()
  move _ _ := .error (.adapterErr 99)
  copy _ _ := .error (.adapterErr 99)

/-- A mount table holding `fsLoc` under the single prefix `loc`. -/
def mmSingle : MountMgr :=
  { managers := some [(['l', 'o', 'c'], fsLoc)] }

/-- A mounted instance whose `ReadStream` fails with `fileNotFound x`
(returning the nil stream handle alongside the error, as the facade does). -/
def fsReadErr : MountedFS where
  id := 2
  readStream _ := .error (.fileNotFound ['x'])
  writeStream _ _ := .ok ()
  delete _ := .ok ()
  move _ _ := .ok ()
  copy _ _ := .ok ()

/-- A mounted instance on which every operation succeeds (stream handle `7`). -/
def fsPlain : MountedFS where
  id := 3
  readStream _ := .ok 7
  writeStream _ _ := .ok ()
  delete _ := .ok ()
  move _ _ := .ok ()
  copy _ _ := .ok ()

/-- A mounted instance whose `WriteStream` fails with `adapterErr 5`. -/
def fsWriteErr : MountedFS where
  id := 4
  readStream _ := .ok 7
  writeStream _ _ := .error (.adapterErr 5)
  delete _ := .ok ()
  move _ _ := .ok ()
  copy _ _ := .ok ()

/-- A mount table with a failing-read source under `a` and a healthy
destination under `b`. -/
def mmReadErr : MountMgr :=
  { managers := some [(['a'], fsReadErr), (['b'], fsPlain)] }

/-- A mount table with a healthy source under `a` and a failing-write
destination under `b`. -/
def mmWriteErr : MountMgr :=
  { managers := some [(['a'], fsPlain), (['b'], fsWriteErr)] }

/-! ## Lemmas about the path normalizer -/

theorem stripHashAux_length_le (cs : List Char) : ∀ b, (stripHashAux b cs).length ≤ cs.length := by
  induction cs with
  | nil => intro b; simp [stripHashAux]
  | cons c rest ih =>
    intro b
    simp only [stripHashAux]
    split
    · exact Nat.le_succ_of_le (ih true)
    · split
      · exact Nat.le_succ_of_le (ih true)
      · simp only [List.length_cons]
        exact Nat.succ_le_succ (ih false)

theorem stripHashAux_length_lt (cs : List Char) (h : hasHashMatch cs = true) :
    (stripHashAux false cs).length < cs.length := by
  induction cs with
  | nil => simp [hasHashMatch] at h
  | cons c rest ih =>
    simp only [stripHashAux, Bool.false_and, Bool.false_eq_true, if_false]
    by_cases hc : (c = '#' && headIsC rest) = true
    · rw [if_pos hc]
      exact Nat.lt_succ_of_le (stripHashAux_length_le rest true)
    · rw [if_neg hc]
      simp only [hasHashMatch, hc, if_false] at h
      simpa using ih h

theorem mem_stripHashAux {c : Char} (cs : List Char) :
    ∀ b, c ∈ stripHashAux b cs → c ∈ cs := by
  induction cs with
  | nil => intro b h; exact h
  | cons d rest ih =>
    intro b h
    simp only [stripHashAux] at h
    split at h
    · exact List.mem_cons_of_mem d (ih true h)
    · split at h
      · exact List.mem_cons_of_mem d (ih true h)
      · rcases List.mem_cons.mp h with h | h
        · exact h ▸ List.mem_cons_self d rest
        · exact List.mem_cons_of_mem d (ih false h)

theorem stripPassFn_length_lt (cs : List Char) (h : hasMatch cs = true) :
    (stripPassFn cs).length < cs.length := by
  unfold stripPassFn
  by_cases hp : (['.', '/', '#', 'u'].isPrefixOf cs) = true
  · rw [if_pos hp]
    obtain ⟨t, ht⟩ := List.isPrefixOf_iff_prefix.mp hp
    subst ht
    have h4 : (['.', '/', '#', 'u'] ++ t).drop 4 = t := rfl
    rw [h4]
    calc (stripHash t).length ≤ t.length := stripHashAux_length_le t false
    _ < (['.', '/', '#', 'u'] ++ t).length := by simp; omega
  · rw [if_neg hp]
    unfold hasMatch at h
    rcases Bool.or_eq_true_iff.mp h with h | h
    · exact absurd h hp
    · exact stripHashAux_length_lt cs h

theorem mem_stripPassFn {c : Char} (cs : List Char) (h : c ∈ stripPassFn cs) : c ∈ cs := by
  unfold stripPassFn at h
  split at h
  · exact List.mem_of_mem_drop (mem_stripHashAux _ false h)
  · exact mem_stripHashAux _ false h

theorem hasMatch_nil : hasMatch ([] : List Char) = false := rfl

theorem removeFunkyLoop_no_match (fuel : Nat) :
    ∀ cs : List Char, cs.length ≤ fuel → hasMatch (removeFunkyLoop fuel cs) = false := by
  induction fuel with
  | zero =>
    intro cs hlen
    have : cs = [] := List.eq_nil_of_length_eq_zero (Nat.le_zero.mp hlen)
    subst this
    exact hasMatch_nil
  | succ fuel ih =>
    intro cs hlen
    simp only [removeFunkyLoop]
    by_cases hm : hasMatch cs = true
    · rw [if_pos hm]
      exact ih _ (by have := stripPassFn_length_lt cs hm; omega)
    · rw [if_neg hm]
      exact Bool.not_eq_true _ ▸ eq_false_of_ne_true hm

theorem mem_removeFunkyLoop {c : Char} (fuel : Nat) :
    ∀ cs : List Char, c ∈ removeFunkyLoop fuel cs → c ∈ cs := by
  induction fuel with
  | zero => intro cs h; exact h
  | succ fuel ih =>
    intro cs h
    simp only [removeFunkyLoop] at h
    split at h
    · exact mem_stripPassFn cs (ih _ h)
    · exact h

theorem hasMatch_removeFunkyWhiteSpace (cs : List Char) :
    hasMatch (removeFunkyWhiteSpace cs) = false :=
  removeFunkyLoop_no_match cs.length cs le_rfl

theorem mem_removeFunkyWhiteSpace {c : Char} (cs : List Char)
    (h : c ∈ removeFunkyWhiteSpace cs) : c ∈ cs :=
  mem_removeFunkyLoop cs.length cs h

theorem removeFunkyWhiteSpace_no_match (cs : List Char) (h : hasMatch cs = false) :
    removeFunkyWhiteSpace cs = cs := by
  have : ∀ fuel, removeFunkyLoop fuel cs = cs := by
    intro fuel; cases fuel <;> simp [removeFunkyLoop, h]
  exact this cs.length

theorem mem_goReplaceBackslash {c : Char} (p : List Char)
    (h : c ∈ goReplaceBackslash p) : c ≠ '\\' := by
  unfold goReplaceBackslash at h
  obtain ⟨a, _, ha⟩ := List.mem_map.mp h
  subst ha
  split
  · decide
  · assumption

theorem goReplaceBackslash_eq_self (p : List Char) (h : ∀ c ∈ p, c ≠ '\\') :
    goReplaceBackslash p = p := by
  induction p with
  | nil => rfl
  | cons c rest ih =>
    unfold goReplaceBackslash
    simp only [List.map_cons]
    rw [if_neg (h c (List.mem_cons_self c rest))]
    have := ih fun d hd => h d (List.mem_cons_of_mem c hd)
    unfold goReplaceBackslash at this
    rw [this]

theorem goSplit_shape (sep : Char) (cs : List Char) :
    ∃ s ss, goSplit sep cs = s :: ss ∧ s <+: cs ∧ ∀ p ∈ ss, p <:+: cs := by
  induction cs with
  | nil => exact ⟨[], [], rfl, List.nil_prefix, by simp⟩
  | cons c rest ih =>
    obtain ⟨s, ss, hs, hpre, hinf⟩ := ih
    by_cases hc : c = sep
    · refine ⟨[], goSplit sep rest, by simp [goSplit, hc], List.nil_prefix, ?_⟩
      intro p hp
      rw [hs] at hp
      rcases List.mem_cons.mp hp with hp | hp
      · exact List.infix_cons (hp ▸ hpre.isInfix)
      · exact List.infix_cons (hinf p hp)
    · refine ⟨c :: s, ss, ?_, ?_, ?_⟩
      · simp only [goSplit, if_neg hc, hs]
      · obtain ⟨t, ht⟩ := hpre
        exact ⟨t, by simp [ht]⟩
      · intro p hp
        exact List.infix_cons (hinf p hp)

theorem not_mem_goSplit_sep (sep : Char) (cs : List Char) :
    ∀ p ∈ goSplit sep cs, sep ∉ p := by
  induction cs with
  | nil =>
    intro p hp
    simp only [goSplit, List.mem_singleton] at hp
    simp [hp]
  | cons c rest ih =>
    intro p hp
    by_cases hc : c = sep
    · simp only [goSplit, if_pos hc] at hp
      rcases List.mem_cons.mp hp with hp | hp
      · simp [hp]
      · exact ih p hp
    · simp only [goSplit, if_neg hc] at hp
      obtain ⟨s, ss, hs, _, _⟩ := goSplit_shape sep rest
      rw [hs] at hp
      rcases List.mem_cons.mp hp with hp | hp
      · subst hp
        intro hmem
        rcases List.mem_cons.mp hmem with hmem | hmem
        · exact hc hmem.symm
        · exact ih s (hs ▸ List.mem_cons_self s ss) hmem
      · exact ih p (hs ▸ List.mem_cons_of_mem s hp)

theorem goSplit_single (sep : Char) (p : List Char) (h : sep ∉ p) :
    goSplit sep p = [p] := by
  induction p with
  | nil => rfl
  | cons c rest ih =>
    have hc : ¬ c = sep := fun he => h (he ▸ List.mem_cons_self c rest)
    have hr : sep ∉ rest := fun hm => h (List.mem_cons_of_mem c hm)
    simp only [goSplit, if_neg hc, ih hr]

theorem goSplit_append_sep (sep : Char) (p t : List Char) (h : sep ∉ p) :
    goSplit sep (p ++ sep :: t) = p :: goSplit sep t := by
  induction p with
  | nil => simp [goSplit]
  | cons c p' ih =>
    have hc : ¬ c = sep := fun he => h (he ▸ List.mem_cons_self c p')
    have hp' : sep ∉ p' := fun hm => h (List.mem_cons_of_mem c hm)
    simp only [List.cons_append, goSplit, if_neg hc, List.append_eq, ih hp']

theorem goSplit_goJoin (sep : Char) (ps : List (List Char)) (hne : ps ≠ [])
    (h : ∀ p ∈ ps, sep ∉ p) : goSplit sep (goJoin sep ps) = ps := by
  induction ps with
  | nil => exact absurd rfl hne
  | cons p ps' ih =>
    cases ps' with
    | nil => exact goSplit_single sep p (h p (List.mem_cons_self p []))
    | cons q ps'' =>
      have hj : goJoin sep (p :: q :: ps'') = p ++ sep :: goJoin sep (q :: ps'') := rfl
      rw [hj, goSplit_append_sep sep p _ (h p (List.mem_cons_self p _)),
        ih (by simp) fun r hr => h r (List.mem_cons_of_mem p hr)]

theorem mem_goJoin {c : Char} (sep : Char) (ps : List (List Char))
    (h : c ∈ goJoin sep ps) : c = sep ∨ ∃ p ∈ ps, c ∈ p := by
  induction ps with
  | nil => exact absurd h (List.not_mem_nil c)
  | cons p ps' ih =>
    cases ps' with
    | nil => exact Or.inr ⟨p, List.mem_cons_self p [], h⟩
    | cons q ps'' =>
      rcases List.mem_append.mp h with h | h
      · exact Or.inr ⟨p, List.mem_cons_self p _, h⟩
      · rcases List.mem_cons.mp h with h | h
        · exact Or.inl h
        · rcases ih h with h | ⟨r, hr, hc⟩
          · exact Or.inl h
          · exact Or.inr ⟨r, List.mem_cons_of_mem p hr, hc⟩

theorem goJoin_cons_append (sep : Char) (q : List Char) (qs : List (List Char)) :
    ∃ t, goJoin sep (q :: qs) = q ++ t := by
  cases qs with
  | nil => exact ⟨[], by simp [goJoin]⟩
  | cons r ps => exact ⟨sep :: goJoin sep (r :: ps), rfl⟩

theorem headIsC_append (a t : List Char) (h : a ≠ []) :
    headIsC (a ++ t) = headIsC a := by
  cases a with
  | nil => exact absurd rfl h
  | cons c rest => rfl

theorem ne_nil_of_headIsC {a : List Char} (h : headIsC a = true) : a ≠ [] := by
  cases a with
  | nil => simp [headIsC] at h
  | cons c rest => simp

theorem hasHashMatch_cons (c : Char) (rest : List Char) :
    hasHashMatch (c :: rest) =
      if c = '#' && headIsC rest then true else hasHashMatch rest := rfl

theorem hasHashMatch_append_left (a t : List Char) (h : hasHashMatch a = true) :
    hasHashMatch (a ++ t) = true := by
  induction a with
  | nil => simp [hasHashMatch] at h
  | cons c a' ih =>
    rw [List.cons_append, hasHashMatch_cons]
    by_cases hc : (c = '#' && headIsC a') = true
    · have ha' : a' ≠ [] := ne_nil_of_headIsC (Bool.and_elim_right hc)
      rw [headIsC_append a' t ha']
      rw [if_pos hc]
    · rw [hasHashMatch_cons, if_neg hc] at h
      split
      · rfl
      · exact ih h

theorem hasHashMatch_append_right (l q : List Char) (h : hasHashMatch q = true) :
    hasHashMatch (l ++ q) = true := by
  induction l with
  | nil => exact h
  | cons c l' ih =>
    rw [List.cons_append, hasHashMatch_cons]
    split
    · rfl
    · exact ih

theorem hasHashMatch_infix {q m : List Char} (hinf : q <:+: m)
    (h : hasHashMatch q = true) : hasHashMatch m = true := by
  obtain ⟨l, t, rfl⟩ := hinf
  rw [List.append_assoc]
  exact hasHashMatch_append_right l (q ++ t) (hasHashMatch_append_left q t h)

theorem hasHashMatch_append_false (a b : List Char) (ha : hasHashMatch a = false)
    (hb : hasHashMatch b = false) (hh : headIsC b = false) :
    hasHashMatch (a ++ b) = false := by
  induction a with
  | nil => exact hb
  | cons c a' ih =>
    rw [hasHashMatch_cons] at ha
    by_cases hc : (c = '#' && headIsC a') = true
    · rw [if_pos hc] at ha; exact absurd ha (by simp)
    · rw [if_neg hc] at ha
      rw [List.cons_append, hasHashMatch_cons]
      cases a' with
      | nil =>
        have : (c = '#' && headIsC ([] ++ b)) = false := by
          simp only [List.nil_append, hh, Bool.and_false]
        rw [this, if_neg (by simp)]
        exact hb
      | cons d a'' =>
        rw [headIsC_append (d :: a'') b (by simp)]
        rw [if_neg hc]
        exact ih ha

theorem hasHashMatch_goJoin (ps : List (List Char))
    (h : ∀ p ∈ ps, hasHashMatch p = false) : hasHashMatch (goJoin '/' ps) = false := by
  induction ps with
  | nil => rfl
  | cons p ps' ih =>
    cases ps' with
    | nil => exact h p (List.mem_cons_self p [])
    | cons q ps'' =>
      have hj : goJoin '/' (p :: q :: ps'') = p ++ '/' :: goJoin '/' (q :: ps'') := rfl
      rw [hj]
      refine hasHashMatch_append_false _ _ (h p (List.mem_cons_self p _)) ?_ rfl
      have hstep : hasHashMatch ('/' :: goJoin '/' (q :: ps'')) =
          hasHashMatch (goJoin '/' (q :: ps'')) := by
        rw [hasHashMatch_cons, if_neg]
        simp
      rw [hstep]
      exact ih fun r hr => h r (List.mem_cons_of_mem p hr)

theorem segFold_mem (segs : List (List Char)) :
    ∀ acc out, segFold acc segs = some out →
      ∀ p ∈ out, p ∈ acc ∨ (p ∈ segs ∧ Plain p) := by
  induction segs with
  | nil =>
    intro acc out h p hp
    simp only [segFold, Option.some.injEq] at h
    exact Or.inl (h ▸ hp)
  | cons s rest ih =>
    intro acc out h p hp
    by_cases h1 : s = []
    · rw [segFold, if_pos h1] at h
      rcases ih acc out h p hp with h' | ⟨h', hpl⟩
      · exact Or.inl h'
      · exact Or.inr ⟨List.mem_cons_of_mem s h', hpl⟩
    · by_cases h2 : s = ['.']
      · rw [segFold, if_neg h1, if_pos h2] at h
        rcases ih acc out h p hp with h' | ⟨h', hpl⟩
        · exact Or.inl h'
        · exact Or.inr ⟨List.mem_cons_of_mem s h', hpl⟩
      · by_cases h3 : s = ['.', '.']
        · rw [segFold, if_neg h1, if_neg h2, if_pos h3] at h
          by_cases h4 : acc = []
          · rw [if_pos h4] at h; exact absurd h (by simp)
          · rw [if_neg h4] at h
            rcases ih _ out h p hp with h' | ⟨h', hpl⟩
            · exact Or.inl (List.Sublist.subset (List.dropLast_sublist acc) h')
            · exact Or.inr ⟨List.mem_cons_of_mem s h', hpl⟩
        · rw [segFold, if_neg h1, if_neg h2, if_neg h3] at h
          rcases ih _ out h p hp with h' | ⟨h', hpl⟩
          · rcases List.mem_append.mp h' with h'' | h''
            · exact Or.inl h''
            · have : p = s := List.mem_singleton.mp h''
              exact Or.inr ⟨this ▸ List.mem_cons_self s rest, this ▸ ⟨h1, h2, h3⟩⟩
          · exact Or.inr ⟨List.mem_cons_of_mem s h', hpl⟩

theorem segFold_plain (segs : List (List Char)) :
    ∀ acc, (∀ p ∈ segs, Plain p) → segFold acc segs = some (acc ++ segs) := by
  induction segs with
  | nil => intro acc _; simp [segFold]
  | cons s rest ih =>
    intro acc h
    obtain ⟨h1, h2, h3⟩ := h s (List.mem_cons_self s rest)
    rw [segFold, if_neg h1, if_neg h2, if_neg h3,
      ih (acc ++ [s]) fun p hp => h p (List.mem_cons_of_mem s hp)]
    simp

/-- C7: path normalization is idempotent — whenever `normalizeRelativePath`
succeeds on a raw path `p` with result `r`, normalizing `r` again succeeds
and returns `r` itself. -/
theorem normalizeRelativePath_idempotent (p r : List Char)
    (h : normalizeRelativePath p = some r) : normalizeRelativePath r = some r := by
  unfold normalizeRelativePath at h
  cases hseg : segFold [] (goSplit '/' (removeFunkyWhiteSpace (goReplaceBackslash p))) with
  | none => rw [hseg] at h; simp at h
  | some parts =>
    rw [hseg] at h
    simp only [Option.some.injEq] at h
    have hr : r = goJoin '/' parts := h.symm
    have hmem : ∀ q ∈ parts,
        q ∈ goSplit '/' (removeFunkyWhiteSpace (goReplaceBackslash p)) ∧ Plain q := by
      intro q hq
      rcases segFold_mem _ [] parts hseg q hq with h' | h'
      · exact absurd h' (List.not_mem_nil q)
      · exact h'
    have hp2hash : hasHashMatch (removeFunkyWhiteSpace (goReplaceBackslash p)) = false := by
      have hm := hasMatch_removeFunkyWhiteSpace (goReplaceBackslash p)
      unfold hasMatch at hm
      exact (Bool.or_eq_false_iff.mp hm).2
    have hslash : ∀ q ∈ parts, '/' ∉ q := fun q hq =>
      not_mem_goSplit_sep '/' _ q (hmem q hq).1
    have hqInf : ∀ q ∈ parts, q <:+: removeFunkyWhiteSpace (goReplaceBackslash p) := by
      intro q hq
      obtain ⟨s, ss, hsplit, hpre, hinf⟩ :=
        goSplit_shape '/' (removeFunkyWhiteSpace (goReplaceBackslash p))
      have hq' := (hmem q hq).1
      rw [hsplit] at hq'
      rcases List.mem_cons.mp hq' with h' | h'
      · exact h' ▸ hpre.isInfix
      · exact hinf q h'
    have hqhash : ∀ q ∈ parts, hasHashMatch q = false := by
      intro q hq
      cases hx : hasHashMatch q with
      | false => rfl
      | true =>
        have := hasHashMatch_infix (hqInf q hq) hx
        rw [hp2hash] at this
        exact absurd this (by simp)
    have hrchars : ∀ c ∈ r, c ≠ '\\' := by
      intro c hc
      rw [hr] at hc
      rcases mem_goJoin '/' parts hc with hc' | ⟨q, hq, hcq⟩
      · subst hc'; decide
      · have h1 : c ∈ removeFunkyWhiteSpace (goReplaceBackslash p) :=
          List.IsInfix.subset (hqInf q hq) hcq
        exact mem_goReplaceBackslash p (mem_removeFunkyWhiteSpace _ h1)
    have hback : goReplaceBackslash r = r := goReplaceBackslash_eq_self r hrchars
    have hrhash : hasHashMatch r = false := by
      rw [hr]; exact hasHashMatch_goJoin parts hqhash
    cases hparts : parts with
    | nil =>
      have hrnil : r = [] := by rw [hr, hparts]; rfl
      rw [hrnil]
      decide
    | cons q qs =>
      have hqmem : q ∈ parts := by rw [hparts]; exact List.mem_cons_self q qs
      have hqplain : Plain q := (hmem q hqmem).2
      have hrpref : (['.', '/', '#', 'u'].isPrefixOf r) = false := by
        apply Bool.eq_false_iff.mpr
        intro habs
        obtain ⟨w, hw⟩ := List.isPrefixOf_iff_prefix.mp habs
        obtain ⟨t, ht⟩ := goJoin_cons_append '/' q qs
        have hreq : q ++ t = '.' :: '/' :: '#' :: 'u' :: w := by
          rw [← ht, ← hparts, ← hr]
          exact hw.symm
        cases q with
        | nil => exact hqplain.1 rfl
        | cons c1 q1 =>
          cases q1 with
          | nil =>
            simp only [List.cons_append, List.nil_append, List.cons.injEq] at hreq
            exact hqplain.2.1 (by rw [hreq.1])
          | cons c2 q2 =>
            simp only [List.cons_append, List.cons.injEq] at hreq
            obtain ⟨h1, h2, -⟩ := hreq
            subst h1
            subst h2
            exact hslash _ hqmem (List.mem_cons_of_mem '.' (List.mem_cons_self '/' q2))
      have hnomatch : hasMatch r = false := by
        unfold hasMatch
        rw [hrpref, hrhash]
        rfl
      have hfunk : removeFunkyWhiteSpace r = r := removeFunkyWhiteSpace_no_match r hnomatch
      have hslash2 : ∀ s ∈ q :: qs, '/' ∉ s := fun s hs =>
        hslash s (by rw [hparts]; exact hs)
      have hsplit2 : goSplit '/' r = q :: qs := by
        rw [hr, hparts]
        exact goSplit_goJoin '/' (q :: qs) (by simp) hslash2
      have hsf : segFold [] (q :: qs) = some ([] ++ (q :: qs)) :=
        segFold_plain (q :: qs) [] fun s hs => (hmem s (by rw [hparts]; exact hs)).2
      unfold normalizeRelativePath
      rw [hback, hfunk, hsplit2, hsf]
      show some (goJoin '/' ([] ++ q :: qs)) = some r
      rw [List.nil_append, ← hparts, ← hr]

/-! ## Claim theorems -/

/-- C1: evaluation of the facade's mutating operations against the
`disableAsserts` gate. With the default configuration (`disableAsserts`
unset) the pre-checks are skipped — `Write` on the present path `a`
succeeds, and `Update`/`Delete` on the absent path `z` are forwarded to the
adapter and succeed — while with `disableAsserts = true` the pre-checks run
and fail `FileExists`/`FileNotFound`. The guard `!ok || v` of
`assertPresent`/`assertAbsent` performs the check exactly when the claim
says it is suppressed. -/
theorem c1_assert_gate_inverted :
    fsDefault.write ['a'] "x" [] = .ok () ∧
    fsDefault.update ['z'] "x" [] = .ok () ∧
    fsDefault.delete ['z'] = .ok true ∧
    fsDisabled.write ['a'] "x" [] = .error (.fileExists ['a']) ∧
    fsDisabled.update ['z'] "x" [] = .error (.fileNotFound ['z']) :=
  ⟨rfl, rfl, rfl, rfl, rfl⟩

/-- C2: evaluation of `filesystem.Copy`. With the default configuration a
copy with an absent source is forwarded to the adapter and succeeds instead
of failing `FileNotFound`; and when the checks do run (which the inverted
gate ties to `disableAsserts = true`), a copy with a present source `a` and
an absent destination `b` fails `FileExists` on the source — because the
second assertion is `assertAbsent(path)`, not `assertAbsent(newpath)` —
instead of being forwarded. -/
theorem c2_copy_checks_wrong_path :
    fsDefault.copy ['z'] ['b'] = .ok () ∧
    fsDisabled.copy ['a'] ['b'] = .error (.fileExists ['a']) :=
  ⟨rfl, rfl⟩

/-- C3: both `loc://x` and `loc://y` resolve to the same mounted instance
`fsLoc`, whose native `Move`/`Copy` would return the distinctive error
`adapterErr 99`; yet the manager's move/copy return the streaming
synthesis's trace (success, source deleted on move, stream closed), because
`&mgr1 == &mgr2` compares the addresses of two distinct local variables and
is never true. -/
theorem c3_same_mount_streams :
    mmSingle.move "loc://x".toList "loc://y".toList =
      { result := .ok (), deleteCalled := true, closes := [some 7] } ∧
    mmSingle.copy "loc://x".toList "loc://y".toList =
      { result := .ok (), deleteCalled := false, closes := [some 7] } ∧
    fsLoc.move ['x'] ['y'] = .error (.adapterErr 99) ∧
    fsLoc.copy ['x'] ['y'] = .error (.adapterErr 99) :=
  ⟨rfl, rfl, rfl, rfl⟩

/-- C4: on the cross-backend move whose `ReadStream` fails, the deferred
`Close` — registered before the error check — runs on the nil stream handle
(`closes = [none]`) and the call panics; on the write-failure path the
handle is closed exactly once as claimed. -/
theorem c4_nil_handle_close :
    mmReadErr.move "a://x".toList "b://y".toList =
      { result := .panicked, deleteCalled := false, closes := [none] } ∧
    mmWriteErr.move "a://x".toList "b://y".toList =
      { result := .error (.adapterErr 5), deleteCalled := false, closes := [some 7] } :=
  ⟨rfl, rfl⟩

/-- C5 counterexample: when the source read is the first failing step of a
cross-backend move, its error (`fileNotFound x`) is not surfaced — the call
panics on the deferred nil-handle `Close` instead — refuting the claim that
the first failing step's error is always returned. -/
theorem c5_read_error_not_surfaced :
    (mmReadErr.move "a://x".toList "b://y".toList).result = .panicked ∧
    (mmReadErr.move "a://x".toList "b://y".toList).result ≠
      .error (.fileNotFound ['x']) := by
  exact ⟨rfl, by decide⟩

/-- C5 (amended): in the streaming synthesis of `mountManager.Move`, if the
destination write fails then the write error is returned unwrapped and the
source delete is never invoked; the delete is invoked only when the read and
the write both succeeded; and when the read itself fails the call panics
(nil-handle close) rather than returning the read error. -/
theorem c5_no_partial_move (mgr1 mgr2 : MountedFS) (sp dp : List Char) :
    (∀ h e, mgr1.readStream sp = .ok h → mgr2.writeStream dp h = .error e →
      crossMove mgr1 mgr2 sp dp =
        { result := .error e, deleteCalled := false, closes := [some h] }) ∧
    ((crossMove mgr1 mgr2 sp dp).deleteCalled = true →
      ∃ h, mgr1.readStream sp = .ok h ∧ mgr2.writeStream dp h = .ok ()) ∧
    (∀ e, mgr1.readStream sp = .error e →
      crossMove mgr1 mgr2 sp dp =
        { result := .panicked, deleteCalled := false, closes := [none] }) := by
  refine ⟨?_, ?_, ?_⟩
  · intro h e hr hw
    unfold crossMove
    simp only [hr, hw]
  · intro hdel
    cases hr : mgr1.readStream sp with
    | error e =>
      have hc : crossMove mgr1 mgr2 sp dp =
          { result := .panicked, deleteCalled := false, closes := [none] } := by
        unfold crossMove; rw [hr]
      rw [hc] at hdel
      simp at hdel
    | panicked =>
      have hc : crossMove mgr1 mgr2 sp dp =
          { result := .panicked, deleteCalled := false, closes := [] } := by
        unfold crossMove; rw [hr]
      rw [hc] at hdel
      simp at hdel
    | ok h =>
      cases hw : mgr2.writeStream dp h with
      | error e =>
        have hc : crossMove mgr1 mgr2 sp dp =
            { result := .error e, deleteCalled := false, closes := [some h] } := by
          unfold crossMove; simp only [hr, hw]
        rw [hc] at hdel
        simp at hdel
      | panicked =>
        have hc : crossMove mgr1 mgr2 sp dp =
            { result := .panicked, deleteCalled := false, closes := [some h] } := by
          unfold crossMove; simp only [hr, hw]
        rw [hc] at hdel
        simp at hdel
      | ok u =>
        cases u
        exact ⟨h, rfl, hw⟩
  · intro e hr
    unfold crossMove
    simp only [hr]

/-- C5 witness: the amended guarantee evaluated on the failing-write mount
pair — the write error `adapterErr 5` is returned, the source delete is not
invoked, and the stream handle `7` is closed once. -/
theorem c5_no_partial_move_witness :
    crossMove fsPlain fsWriteErr ['x'] ['y'] =
      { result := .error (.adapterErr 5), deleteCalled := false, closes := [some 7] } :=
  (c5_no_partial_move fsPlain fsWriteErr ['x'] ['y']).1 7 (.adapterErr 5) rfl rfl

/-- C6: `PrepareConfig` with the nonempty override `{x: 2}` panics — it
starts from `EmptyConfig()` whose `settings` map was never allocated, and
the first `Set` assigns into the nil map — while with the empty override map
the returned chain resolves `x` to the persistent default `1` and an unbound
key to the caller-supplied default. -/
theorem c6_prepare_config_panics :
    prepareConfig (some persistentConfigX1) [("x", .vInt 2)] = none ∧
    prepareConfig (some persistentConfigX1) [] =
      some (Config.mk none (some persistentConfigX1)) ∧
    (Config.mk none (some persistentConfigX1)).get "x" (.vInt 0) = .vInt 1 ∧
    (Config.mk none (some persistentConfigX1)).get "y" (.vInt 7) = .vInt 7 :=
  ⟨rfl, rfl, rfl, rfl⟩

/-- C7 witness: idempotence applied to the concrete normalization of
`a/../b`, whose result is `b`. -/
theorem normalizeRelativePath_idempotent_witness :
    normalizeRelativePath ['b'] = some ['b'] :=
  normalizeRelativePath_idempotent ['a', '/', '.', '.', '/', 'b'] ['b'] (by decide)

/-- C8: the control character U+0001 is in Go's `\p{C}` class, yet
normalizing the path `\u0001a` leaves it in place — `whiteSpaceRegexp`
kept the PHP pattern delimiters, so it only strips `\p{C}` runs preceded by
a literal `#` (third conjunct) or a literal leading `./#u`. -/
theorem c8_control_char_survives :
    isC (Char.ofNat 1) = true ∧
    normalizeRelativePath [Char.ofNat 1, 'a'] = some [Char.ofNat 1, 'a'] ∧
    removeFunkyWhiteSpace ['#', Char.ofNat 1] = [] := by
  refine ⟨rfl, by decide, by decide⟩

/-- C9: a manager built by `EmptyMountManager` has the nil `managers` map:
every `Mount` call panics on the nil-map assignment, and every dispatch
lookup (any path that splits into a prefix and subpath) fails
`MountNotFound` for its prefix. -/
theorem c9_empty_mount_manager :
    (∀ pfx mgr, emptyMountManager.mount pfx mgr = .panicked) ∧
    (∀ p pfx sub, splitPath p = .ok (pfx, sub) →
      emptyMountManager.managerFor p = .error (.mountNotFound pfx)) := by
  constructor
  · intro pfx mgr
    rfl
  · intro p pfx sub h
    unfold MountMgr.managerFor
    simp only [h]
    rfl

/-- C9 witness: mounting `fsLoc` under `l` on the empty manager panics, and
dispatching `a://x` fails `MountNotFound a`. -/
theorem c9_empty_mount_manager_witness :
    emptyMountManager.mount ['l'] fsLoc = .panicked ∧
    emptyMountManager.managerFor "a://x".toList = .error (.mountNotFound ['a']) :=
  ⟨c9_empty_mount_manager.1 ['l'] fsLoc,
   c9_empty_mount_manager.2 "a://x".toList ['a'] ['x'] (by decide)⟩

/-- C10: a filesystem built by `New` carries the nil `plugins` map: every
`AddPlugin` call panics on the nil-map assignment, and `FindPlugin` and
`InvokePlugin` fail `PluginNotFound` for every method name. -/
theorem c10_plugins_nil (a : Adapter) (cfg : Option Config) (fs : Filesystem)
    (h : Filesystem.new (some a) cfg = .ok fs) :
    (∀ pl, fs.addPlugin pl = none) ∧
    (∀ m, fs.findPlugin m = .error (.pluginNotFound m)) ∧
    (∀ m args, fs.invokePlugin m args = .error (.pluginNotFound m)) := by
  have h' : Except.ok ({ config := cfg, plugins := none, adapter := a } : Filesystem) =
      (.ok fs : Except Err Filesystem) := h
  injection h' with h'
  subst h'
  exact ⟨fun pl => rfl, fun m => rfl, fun m args => rfl⟩

/-- C10 witness: the facade built by `New` over `oneFileAdapter` rejects
plugin registration with a panic and fails `PluginNotFound` on lookup and
invocation. -/
theorem c10_plugins_nil_witness :
    fsDefault.addPlugin samplePlugin = none ∧
    fsDefault.findPlugin "EmptyDir" = .error (.pluginNotFound "EmptyDir") ∧
    fsDefault.invokePlugin "EmptyDir" [] = .error (.pluginNotFound "EmptyDir") := by
  obtain ⟨h1, h2, h3⟩ := c10_plugins_nil oneFileAdapter (some EmptyConfig) fsDefault rfl
  exact ⟨h1 samplePlugin, h2 "EmptyDir", h3 "EmptyDir" []⟩
